import Mathlib

/-!
Verification of the PTY manager core of `codezilla` (`src-tauri/src/pty/`).

Bytes are modelled as `Nat` (the Rust code works on `u8` slices; every literal
we introduce is `< 256`), Rust `i64`/`i32` become `Int`, `u16` becomes `Nat`
(only compared for equality, never overflowed), and `Vec<u8>` becomes
`List Nat`.  Fallible operations return `Option`/`Except`.  Each definition is
a direct transcription of the function of the same name in
`src-tauri/src/pty/session.rs` or `src-tauri/src/pty/mod.rs`.
-/

namespace Codezilla

/-- Source constant `ACTIVE_THRESHOLD_MS` (session.rs). -/
def ACTIVE_THRESHOLD_MS : Int := 1500

/-- Source constant `RESIZE_SUPPRESS_MS` (session.rs). -/
def RESIZE_SUPPRESS_MS : Int := 1500

/-- Source constant `MARKER_PREFIX = b"\x1b]633;CZ;"` (session.rs), the
introducer of a boundary marker; named `MARKER_OSC` here. -/
def MARKER_OSC : List Nat := [27, 93, 54, 51, 51, 59, 67, 90, 59]

/-- Source constant `PROGRESS_PREFIX = b"\x1b]9;4;"` (session.rs), the
introducer of a progress marker; named `PROGRESS_OSC` here. -/
def PROGRESS_OSC : List Nat := [27, 93, 57, 59, 52, 59]

/-- Source constant `MAX_PENDING` (session.rs). -/
def MAX_PENDING : Nat := 65536

/-- Source enum `MarkerEvent` (session.rs). -/
inductive MarkerEvent where
  | commandStart : MarkerEvent
  | commandEnd (exit_code : Option Int) : MarkerEvent
  | progress (active : Bool) : MarkerEvent
  deriving DecidableEq, Repr

/-! ### UTF-8 and Rust string primitives

`parse_marker_payload` and `parse_progress_payload` call
`std::str::from_utf8(..).ok()?` and then `str::trim` / `str::parse::<i32>`.
We model UTF-8 validation/decoding to a codepoint list, Rust's
`char::is_whitespace` set, and Rust's integer parsing. -/

/-- A UTF-8 continuation byte, `0x80..=0xBF`. -/
def isCont (b : Nat) : Bool := 128 ≤ b && b < 192

/-- Allowed second byte of a 3-byte sequence headed by `b` (excludes
overlong encodings and surrogates, as Rust's validator does). -/
def cont2ok (b b2 : Nat) : Bool :=
  if b = 224 then 160 ≤ b2 && b2 < 192
  else if b = 237 then 128 ≤ b2 && b2 < 160
  else isCont b2

/-- Allowed second byte of a 4-byte sequence headed by `b` (excludes
overlong encodings and codepoints beyond U+10FFFF). -/
def cont3ok (b b2 : Nat) : Bool :=
  if b = 240 then 144 ≤ b2 && b2 < 192
  else if b = 244 then 128 ≤ b2 && b2 < 144
  else isCont b2

/-- Models `std::str::from_utf8`: `some` codepoint list iff the bytes are
valid UTF-8. -/
def utf8Decode : List Nat → Option (List Nat)
  | [] => some []
  | b :: rest =>
    if b < 128 then (utf8Decode rest).map (b :: ·)
    else if b < 194 then none
    else if b < 224 then
      match rest with
      | b2 :: rest2 =>
        if isCont b2 then
          (utf8Decode rest2).map (((b - 192) * 64 + (b2 - 128)) :: ·)
        else none
      | [] => none
    else if b < 240 then
      match rest with
      | b2 :: b3 :: rest3 =>
        if cont2ok b b2 && isCont b3 then
          (utf8Decode rest3).map
            (((b - 224) * 4096 + (b2 - 128) * 64 + (b3 - 128)) :: ·)
        else none
      | _ => none
    else if b < 245 then
      match rest with
      | b2 :: b3 :: b4 :: rest4 =>
        if cont3ok b b2 && isCont b3 && isCont b4 then
          (utf8Decode rest4).map
            (((b - 240) * 262144 + (b2 - 128) * 4096 + (b3 - 128) * 64
              + (b4 - 128)) :: ·)
        else none
      | _ => none
    else none

/-- Rust `char::is_whitespace` (the Unicode White_Space property), on
codepoints. -/
def rustIsWhitespace (c : Nat) : Bool :=
  c == 9 || c == 10 || c == 11 || c == 12 || c == 13 || c == 32 ||
  c == 133 || c == 160 || c == 5760 || (8192 ≤ c && c ≤ 8202) ||
  c == 8232 || c == 8233 || c == 8239 || c == 8287 || c == 12288

/-- Rust `str::trim`, on codepoint lists. -/
def rustTrim (l : List Nat) : List Nat :=
  ((l.dropWhile rustIsWhitespace).reverse.dropWhile rustIsWhitespace).reverse

/-- ASCII digit test used by Rust integer parsing. -/
def isAsciiDigit (c : Nat) : Bool := 48 ≤ c && c ≤ 57

/-- Rust `str::parse::<i32>`: optional sign, one or more ASCII digits,
value within `i32` range; anything else is an error (`none`). -/
def parseI32 (cs : List Nat) : Option Int :=
  let sd : Bool × List Nat :=
    match cs with
    | 45 :: rest => (true, rest)
    | 43 :: rest => (false, rest)
    | _ => (false, cs)
  if sd.2.isEmpty then none
  else if sd.2.all isAsciiDigit then
    let v : Nat := sd.2.foldl (fun a d => a * 10 + (d - 48)) 0
    let s : Int := if sd.1 then -(v : Int) else (v : Int)
    if -2147483648 ≤ s ∧ s ≤ 2147483647 then some s else none
  else none

/-- The codepoints of `"START"`. -/
def sSTART : List Nat := [83, 84, 65, 82, 84]

/-- The codepoints of `"END;"`. -/
def sENDSEMI : List Nat := [69, 78, 68, 59]

/-- Models `str::strip_prefix pat`: `some` remainder iff `pat` leads `l`. -/
def stripLead : List Nat → List Nat → Option (List Nat)
  | [], l => some l
  | _ :: _, [] => none
  | p :: ps, c :: cs => if p = c then stripLead ps cs else none

/-- Source `parse_marker_payload` (session.rs): decode UTF-8, trim, then
`"START"` → `CommandStart`, `"END;" ++ code` → `CommandEnd` with the code
parsed as `i32` (failure gives `exit_code = none`), else no event. -/
def parse_marker_payload (payload : List Nat) : Option MarkerEvent :=
  match utf8Decode payload with
  | none => none
  | some cps =>
    let text := rustTrim cps
    if text = sSTART then some .commandStart
    else
      match stripLead sENDSEMI text with
      | some code => some (.commandEnd (parseI32 code))
      | none => none

/-- Source `parse_progress_payload` (session.rs): decode UTF-8, trim, take
the text before the first `';'`, trim again, parse as `i32`; a nonzero
state is active. -/
def parse_progress_payload (payload : List Nat) : Option MarkerEvent :=
  match utf8Decode payload with
  | none => none
  | some cps =>
    let text := rustTrim cps
    match parseI32 (rustTrim (text.takeWhile (fun c => ¬ c = 59))) with
    | some st => some (.progress (st != 0))
    | none => none

/-- Source `find_osc_terminator` (session.rs), made relative to the search
start: returns `(payload_length, terminator_length)` for the first BEL
(`0x07`) or ESC-backslash; an ESC as the final byte aborts the search
(`return None` in the source). -/
def find_osc_terminator : List Nat → Option (Nat × Nat)
  | [] => none
  | c :: rest =>
    if c = 7 then some (0, 1)
    else if c = 27 then
      match rest with
      | [] => none
      | d :: _ =>
        if d = 92 then some (0, 2)
        else (find_osc_terminator rest).map (fun p => (p.1 + 1, p.2))
    else (find_osc_terminator rest).map (fun p => (p.1 + 1, p.2))

/-- Boolean test that `pat` leads `l` (Rust `starts_with(pat)` is
`leadsWith pat l`; `pat.starts_with(l)` is `leadsWith l pat`). -/
def leadsWith : List Nat → List Nat → Bool
  | [], _ => true
  | _ :: _, [] => false
  | p :: ps, c :: cs => p == c && leadsWith ps cs

/-- The three-way buffering step of `process_chunk` (session.rs): stash the
tail `l` as the pending buffer, but if it exceeds `MAX_PENDING` flush it
verbatim to the cleaned output and leave the buffer empty.  Result triple is
`(cleaned_output, events, pending)`. -/
def capBuffer (l : List Nat) : List Nat × List MarkerEvent × List Nat :=
  if l.length > MAX_PENDING then (l, [], []) else ([], [], l)

/-- The scan loop of `OscMarkerParser::process_chunk` (session.rs), run on
`combined = pending ++ chunk`.  `fuel` is a structural bound on the number of
loop iterations; each iteration consumes at least one byte, so any
`fuel ≥ l.length` gives the loop's value (`scanGo_fuel` below).  Returns
`(cleaned_output, events, new_pending)`. -/
def scanGo : Nat → List Nat → List Nat × List MarkerEvent × List Nat
  | 0, l => capBuffer l
  | _ + 1, [] => ([], [], [])
  | fuel + 1, c :: rest =>
    let l := c :: rest
    if c = 27 then
      if (l.length < MARKER_OSC.length ∧ leadsWith l MARKER_OSC = true) ∨
         (l.length < PROGRESS_OSC.length ∧ leadsWith l PROGRESS_OSC = true) then
        capBuffer l
      else if leadsWith MARKER_OSC l = true then
        match find_osc_terminator (l.drop MARKER_OSC.length) with
        | some pt =>
          let payload := (l.drop MARKER_OSC.length).take pt.1
          let consumed := MARKER_OSC.length + pt.1 + pt.2
          let r := scanGo fuel (l.drop consumed)
          match parse_marker_payload payload with
          | some ev => (r.1, ev :: r.2.1, r.2.2)
          | none => (l.take consumed ++ r.1, r.2.1, r.2.2)
        | none => capBuffer l
      else if leadsWith PROGRESS_OSC l = true then
        match find_osc_terminator (l.drop PROGRESS_OSC.length) with
        | some pt =>
          let payload := (l.drop PROGRESS_OSC.length).take pt.1
          let consumed := PROGRESS_OSC.length + pt.1 + pt.2
          let r := scanGo fuel (l.drop consumed)
          match parse_progress_payload payload with
          | some ev => (r.1, ev :: r.2.1, r.2.2)
          | none => (l.take consumed ++ r.1, r.2.1, r.2.2)
        | none => capBuffer l
      else
        let r := scanGo fuel rest
        (c :: r.1, r.2.1, r.2.2)
    else
      let r := scanGo fuel rest
      (c :: r.1, r.2.1, r.2.2)

/-- The scan of a combined input, with just enough fuel. -/
def scan (l : List Nat) : List Nat × List MarkerEvent × List Nat :=
  scanGo l.length l

/-- Source `OscMarkerParser::process_chunk` (session.rs): the parser state is
its pending buffer; the chunk is appended to it, the buffer cleared, and the
combined bytes scanned.  Returns `(cleaned_output, events, new_pending)`. -/
def OscMarkerParser.process_chunk (pending chunk : List Nat) :
    List Nat × List MarkerEvent × List Nat :=
  scan (pending ++ chunk)

/-- Source `OscMarkerParser::drain_pending_output` (session.rs): takes the
pending buffer, leaving it empty. -/
def OscMarkerParser.drain_pending_output (pending : List Nat) :
    List Nat × List Nat :=
  (pending, [])

/-- Feeding a list of chunks in order to a parser with initial pending
buffer `pending`, concatenating cleaned outputs and events, and returning
the final pending buffer.  This is what the reader loop does with
consecutive reads. -/
def runChunks (pending : List Nat) :
    List (List Nat) → List Nat × List MarkerEvent × List Nat
  | [] => ([], [], pending)
  | c :: cs =>
    let r := OscMarkerParser.process_chunk pending c
    let r2 := runChunks r.2.2 cs
    (r.1 ++ r2.1, r.2.1 ++ r2.2.1, r2.2.2)

/-- Spec-side variant of `scanGo` without the `MAX_PENDING` cap, used only
to state the cap-flush property: the capped scanner equals this one followed
by a flush of an oversized pending buffer. -/
def scanUncappedGo : Nat → List Nat → List Nat × List MarkerEvent × List Nat
  | 0, l => ([], [], l)
  | _ + 1, [] => ([], [], [])
  | fuel + 1, c :: rest =>
    let l := c :: rest
    if c = 27 then
      if (l.length < MARKER_OSC.length ∧ leadsWith l MARKER_OSC = true) ∨
         (l.length < PROGRESS_OSC.length ∧ leadsWith l PROGRESS_OSC = true) then
        ([], [], l)
      else if leadsWith MARKER_OSC l = true then
        match find_osc_terminator (l.drop MARKER_OSC.length) with
        | some pt =>
          let payload := (l.drop MARKER_OSC.length).take pt.1
          let consumed := MARKER_OSC.length + pt.1 + pt.2
          let r := scanUncappedGo fuel (l.drop consumed)
          match parse_marker_payload payload with
          | some ev => (r.1, ev :: r.2.1, r.2.2)
          | none => (l.take consumed ++ r.1, r.2.1, r.2.2)
        | none => ([], [], l)
      else if leadsWith PROGRESS_OSC l = true then
        match find_osc_terminator (l.drop PROGRESS_OSC.length) with
        | some pt =>
          let payload := (l.drop PROGRESS_OSC.length).take pt.1
          let consumed := PROGRESS_OSC.length + pt.1 + pt.2
          let r := scanUncappedGo fuel (l.drop consumed)
          match parse_progress_payload payload with
          | some ev => (r.1, ev :: r.2.1, r.2.2)
          | none => (l.take consumed ++ r.1, r.2.1, r.2.2)
        | none => ([], [], l)
      else
        let r := scanUncappedGo fuel rest
        (c :: r.1, r.2.1, r.2.2)
    else
      let r := scanUncappedGo fuel rest
      (c :: r.1, r.2.1, r.2.2)

/-- The uncapped scan of a combined input. -/
def scanUncapped (l : List Nat) : List Nat × List MarkerEvent × List Nat :=
  scanUncappedGo l.length l

/-- Spec-side (C8): the cap flush as a post-step — when the pending buffer
exceeds `MAX_PENDING`, append the entire buffered content verbatim to the
cleaned output and empty the buffer. -/
def postCap (r : List Nat × List MarkerEvent × List Nat) :
    List Nat × List MarkerEvent × List Nat :=
  if r.2.2.length > MAX_PENDING then (r.1 ++ r.2.2, r.2.1, []) else r

/-- The condition under which `process_chunk` buffers a provisional
introducer: the tail is a strict lead of one of the two introducers. -/
@[reducible] def strictLead (l : List Nat) : Prop :=
  (l.length < MARKER_OSC.length ∧ leadsWith l MARKER_OSC = true) ∨
  (l.length < PROGRESS_OSC.length ∧ leadsWith l PROGRESS_OSC = true)

/-- The byte sequence of §8's split-invariance property:
`ESC ] 6 3 3 ; C Z ; S T A R T BEL h e l l o ESC ] 6 3 3 ; C Z ; E N D ; 0
BEL`. -/
def splitDemoBytes : List Nat :=
  MARKER_OSC ++ [83, 84, 65, 82, 84, 7] ++ [104, 101, 108, 108, 111] ++
    MARKER_OSC ++ [69, 78, 68, 59, 48, 7]

/-- One concrete split of `splitDemoBytes` into six chunks (one empty),
used as a witness. -/
def splitDemoChunks : List (List Nat) :=
  [[27, 93, 54], [51, 51, 59, 67, 90, 59, 83, 84], [],
   [65, 82, 84, 7, 104, 101],
   [108, 108, 111, 27, 93, 54, 51, 51, 59, 67, 90],
   [59, 69, 78, 68, 59, 48, 7]]

/-- Spec-side (C5): the payloads the spec admits as event-producing boundary
payloads — exactly `START`, or `END;` followed by one or more ASCII
digits. -/
def specBoundaryForm (p : List Nat) : Bool :=
  p == sSTART ||
    (leadsWith sENDSEMI p && !(p.drop sENDSEMI.length).isEmpty &&
      (p.drop sENDSEMI.length).all isAsciiDigit)

/-! ### Shell resolver -/

/-- Source enum `ShellFlavor` (session.rs). -/
inductive ShellFlavor where
  | Posix : ShellFlavor
  | Fish : ShellFlavor
  | Unsupported : ShellFlavor
  deriving DecidableEq, Repr

/-- Rust `char::to_ascii_lowercase`. -/
def asciiLower (c : Char) : Char :=
  if 'A' ≤ c ∧ c ≤ 'Z' then Char.ofNat (c.toNat + 32) else c

/-- Splitting a path on `'/'` (Unix `Path::components`, before filtering). -/
def splitSlash : List Char → List (List Char)
  | [] => [[]]
  | c :: rest =>
    match splitSlash rest with
    | [] => if c = '/' then [[], []] else [[c]]
    | g :: gs => if c = '/' then [] :: g :: gs else (c :: g) :: gs

/-- Models Unix `Path::file_name`: the last normal component of the path —
empty components and `"."` are skipped, and a path whose last component is
`".."` (or that has no component) has no file name.  `OsStr::to_str` always
succeeds in this string model. -/
def rustFileName (path : List Char) : Option (List Char) :=
  let comps := (splitSlash path).filter
    (fun c => ¬ c = ([] : List Char) ∧ ¬ c = ['.'])
  match comps.getLast? with
  | some last => if last = ['.', '.'] then none else some last
  | none => none

/-- Boolean test that `pat` occurs as a contiguous run inside `hay`
(Rust `str::contains`). -/
def strContains (hay pat : List Char) : Bool :=
  match hay with
  | [] => pat.isEmpty
  | _ :: t => pat.isPrefixOf hay || strContains t pat

/-- The six POSIX shell base names accepted by `detect_shell_flavor`. -/
def posixShells : List (List Char) :=
  ["zsh".toList, "bash".toList, "sh".toList, "dash".toList,
   "ksh".toList, "ash".toList]

/-- Source `detect_shell_flavor` (session.rs): take the path's file name
(falling back to the whole path), lowercase it, classify as `Fish` when it
contains `"fish"`, `Posix` when it is one of the six POSIX names, else
`Unsupported`. -/
def detect_shell_flavor (shell_path : List Char) : ShellFlavor :=
  let name := ((rustFileName shell_path).getD shell_path).map asciiLower
  if strContains name "fish".toList then .Fish
  else if name ∈ posixShells then .Posix
  else .Unsupported

/-- The classification `detect_shell_flavor` applies to a base name: on the
ASCII-lowercased name, `Fish` when it contains `"fish"` as a substring, else
`Posix` when it is one of the six POSIX shell names, else `Unsupported`. -/
def classifyBaseName (name : List Char) : ShellFlavor :=
  let lower := name.map asciiLower
  if strContains lower "fish".toList then .Fish
  else if lower ∈ posixShells then .Posix
  else .Unsupported

/-! ### Session state and the reader/watchdog steps

`PtySession`'s shared flags (session.rs).  The PTY device, child handle and
writer are I/O resources outside the pure model; the flags and cached size
are what the claims speak about.  `mono_millis()` sampling is represented by
an explicit `now : Int` argument at each step. -/

/-- The atomically shared flags of a `PtySession` (session.rs), plus the
cached last applied size. -/
structure SessionFlags where
  alive : Bool
  command_running : Bool
  progress_running : Bool
  progress_observed : Bool
  active : Bool
  suppress_until : Int
  last_output : Int
  last_rows : Nat
  last_cols : Nat
  deriving DecidableEq, Repr

/-- The flag state installed by `PtySession::spawn` (session.rs). -/
def initialFlags (rows cols : Nat) : SessionFlags :=
  { alive := true, command_running := false, progress_running := false,
    progress_observed := false, active := false, suppress_until := 0,
    last_output := 0, last_rows := rows, last_cols := cols }

/-- Source `PtyActivitySource` (mod.rs). -/
inductive PtyActivitySource where
  | output : PtyActivitySource
  | progress : PtyActivitySource
  deriving DecidableEq, Repr

/-- Source `PtyEvent` (mod.rs). -/
inductive PtyEvent where
  | output (data : List Nat) : PtyEvent
  | activity (active : Bool) (source : PtyActivitySource) : PtyEvent
  | commandStart : PtyEvent
  | commandEnd (exit_code : Option Int) : PtyEvent
  | exit (code : Option Int) : PtyEvent
  deriving DecidableEq, Repr

/-- One iteration of the marker-event `for` loop in `PtySession::read_loop`
(session.rs, the `match marker_event` block): updates the flags and returns
the events sent on the channel. -/
def applyMarkerEvent (f : SessionFlags) (now : Int) :
    MarkerEvent → SessionFlags × List PtyEvent
  | .commandStart =>
    ({ f with command_running := true }, [.commandStart])
  | .commandEnd exit_code =>
    ({ f with command_running := false }, [.commandEnd exit_code])
  | .progress progress_active =>
    let f1 := { f with progress_observed := true,
                       progress_running := progress_active }
    if progress_active then
      ({ f1 with last_output := now, active := true },
       [.activity true .progress])
    else if f.command_running then
      (f1, [])
    else
      ({ f1 with active := false }, [.activity false .progress])

/-- The marker-event `for` loop of `read_loop` over a whole chunk's events,
in order. -/
def applyMarkers (f : SessionFlags) (now : Int) :
    List MarkerEvent → SessionFlags × List PtyEvent
  | [] => (f, [])
  | e :: es =>
    let r := applyMarkerEvent f now e
    let r2 := applyMarkers r.1 now es
    (r2.1, r.2 ++ r2.2)

/-- The clean-data tail of a `read_loop` iteration (session.rs, after the
marker loop): empty cleaned bytes do nothing; otherwise, when `now` is past
the suppression deadline, record output time and raise `active`, emitting
`Activity{true, output}` only on a `false → true` edge; the `Output` event
is always sent. -/
def cleanDataStep (f : SessionFlags) (now : Int) (clean : List Nat) :
    SessionFlags × List PtyEvent :=
  if clean = [] then (f, [])
  else if now > f.suppress_until then
    let wasActive := f.active
    ({ f with last_output := now, active := true },
     (if wasActive then [] else [.activity true .output]) ++ [.output clean])
  else (f, [.output clean])

/-- One full `read_loop` iteration on a successful nonempty read: parse the
chunk, apply the marker events, then handle the cleaned bytes.  Returns the
new flags, the events sent, and the parser's new pending buffer. -/
def readStep (f : SessionFlags) (now : Int) (pending chunk : List Nat) :
    SessionFlags × List PtyEvent × List Nat :=
  let p := OscMarkerParser.process_chunk pending chunk
  let m := applyMarkers f now p.2.1
  let c := cleanDataStep m.1 now p.1
  (c.1, m.2 ++ c.2, p.2.2)

/-- One poll of the activity watchdog (session.rs, the `activity_handle`
loop body): exits when not alive, defers while a command runs, otherwise
clears `active` (emitting `Activity{false, output}` on the edge) once output
has been quiet past `ACTIVE_THRESHOLD_MS`. -/
def watchdogStep (f : SessionFlags) (now : Int) :
    SessionFlags × List PtyEvent :=
  if ¬ f.alive then (f, [])
  else if f.command_running then (f, [])
  else if f.active ∧ f.last_output > 0 ∧
          now - f.last_output ≥ ACTIVE_THRESHOLD_MS then
    ({ f with active := false }, [.activity false .output])
  else (f, [])

namespace PtySession

/-- Source `PtySession::is_busy` (session.rs). -/
def is_busy (f : SessionFlags) : Bool :=
  if !f.alive then false
  else if f.command_running then true
  else if f.progress_observed then f.progress_running
  else f.active

/-- Source `PtySession::is_alive` (session.rs). -/
def is_alive (f : SessionFlags) : Bool := f.alive

/-- Source `PtySession::resize` (session.rs): swap in the new cached size;
if it equals the previous size, return `Ok` without touching
`suppress_until`; otherwise arm the suppression window and resize the
device (the device call is an I/O action modelled as succeeding). -/
def resize (f : SessionFlags) (rows cols : Nat) (now : Int) :
    SessionFlags × Except String Unit :=
  let f1 := { f with last_rows := rows, last_cols := cols }
  if f.last_rows = rows ∧ f.last_cols = cols then (f1, .ok ())
  else ({ f1 with suppress_until := now + RESIZE_SUPPRESS_MS }, .ok ())

/-- Source `PtySession::kill` (session.rs): mark not alive, clear the
command/progress flags, swap `active` to false, terminate and reap the
child (I/O, best effort), return `Ok`. -/
def kill (f : SessionFlags) : SessionFlags × Except String Unit :=
  ({ f with alive := false, command_running := false,
            progress_running := false, active := false }, .ok ())

/-- Source `PtySession::write` (session.rs): lock the writer and write+flush
the bytes; the syscalls are I/O modelled as succeeding. -/
def write (_f : SessionFlags) (_data : List Nat) : Except String Unit :=
  .ok ()

end PtySession

/-! ### Manager -/

/-- Source `PtyManager` (mod.rs): a registry mapping session identifier to
session, modelled as an association list over the sessions' flag states. -/
structure PtyManager where
  sessions : List (String × SessionFlags)
  deriving DecidableEq, Repr

namespace PtyManager

/-- Source `PtyManager::write` (mod.rs): look the session up, failing with
"Session not found" when absent, else delegate to the session's write. -/
def write (m : PtyManager) (session_id : String) (data : List Nat) :
    Except String Unit :=
  match m.sessions.lookup session_id with
  | none => .error "Session not found"
  | some f => PtySession.write f data

/-- Source `PtyManager::resize` (mod.rs): look the session up, failing with
"Session not found" when absent, else delegate to the session's resize
(state-passing: the updated registry is returned alongside). -/
def resize (m : PtyManager) (session_id : String) (rows cols : Nat)
    (now : Int) : Except String PtyManager :=
  match m.sessions.lookup session_id with
  | none => .error "Session not found"
  | some f =>
    let r := PtySession.resize f rows cols now
    match r.2 with
    | .error e => .error e
    | .ok _ =>
      .ok ⟨m.sessions.map (fun e => if e.1 = session_id then (e.1, r.1) else e)⟩

/-- Source `PtyManager::kill` (mod.rs): remove the session from the registry
if present and kill it; an absent identifier is not an error. -/
def kill (m : PtyManager) (session_id : String) :
    PtyManager × Except String Unit :=
  match m.sessions.lookup session_id with
  | none => (m, .ok ())
  | some f =>
    let r := PtySession.kill f
    (⟨m.sessions.filter (fun e => ¬ e.1 = session_id)⟩,
     match r.2 with
     | .error e => .error e
     | .ok _ => .ok ())

/-- Source `PtyManager::reap_dead` (mod.rs): drop sessions that are not
alive. -/
def reap_dead (m : PtyManager) : PtyManager :=
  ⟨m.sessions.filter (fun e => PtySession.is_alive e.2)⟩

/-- Source `PtyManager::busy_session_count` (mod.rs): the number of
registered sessions whose `is_busy()` is true. -/
def busy_session_count (m : PtyManager) : Nat :=
  (m.sessions.filter (fun e => PtySession.is_busy e.2)).length

end PtyManager

/-! ### Basic lemmas about `leadsWith` and `find_osc_terminator` -/

theorem leadsWith_iff (p l : List Nat) :
    leadsWith p l = true ↔ ∃ t, l = p ++ t := by
  induction p generalizing l with
  | nil => simp [leadsWith]
  | cons q qs ih =>
    cases l with
    | nil => simp [leadsWith]
    | cons c cs =>
      simp only [leadsWith, Bool.and_eq_true, beq_iff_eq, ih, List.cons_append]
      constructor
      · rintro ⟨rfl, t, rfl⟩; exact ⟨t, rfl⟩
      · rintro ⟨t, h⟩
        injection h with h1 h2
        exact ⟨h1.symm, t, h2⟩

theorem leadsWith_length {p l : List Nat} (h : leadsWith p l = true) :
    p.length ≤ l.length := by
  rcases (leadsWith_iff p l).1 h with ⟨t, rfl⟩
  simp

theorem leadsWith_append_right {p l : List Nat} (e : List Nat)
    (h : leadsWith p l = true) : leadsWith p (l ++ e) = true := by
  rcases (leadsWith_iff p l).1 h with ⟨t, rfl⟩
  exact (leadsWith_iff _ _).2 ⟨t ++ e, by simp⟩

theorem leadsWith_of_append_le {p x b : List Nat}
    (h : leadsWith p (x ++ b) = true) (hl : p.length ≤ x.length) :
    leadsWith p x = true := by
  induction p generalizing x with
  | nil => simp [leadsWith]
  | cons q qs ih =>
    cases x with
    | nil => simp at hl
    | cons c cs =>
      simp only [List.cons_append, leadsWith, Bool.and_eq_true] at h ⊢
      exact ⟨h.1, ih h.2 (by simpa using hl)⟩

theorem leadsWith_of_appendLeft {x b p : List Nat}
    (h : leadsWith (x ++ b) p = true) : leadsWith x p = true := by
  induction x generalizing p with
  | nil => simp [leadsWith]
  | cons c cs ih =>
    cases p with
    | nil => simp [leadsWith] at h
    | cons q qs =>
      simp only [List.cons_append, leadsWith, Bool.and_eq_true] at h ⊢
      exact ⟨h.1, ih h.2⟩

theorem leadsWith_take (n : Nat) (l : List Nat) :
    leadsWith (l.take n) l = true :=
  (leadsWith_iff _ _).2 ⟨l.drop n, (List.take_append_drop n l).symm⟩

theorem find_osc_step (c : Nat) (rest : List Nat) :
    find_osc_terminator (c :: rest) =
      (if c = 7 then some (0, 1)
       else if c = 27 then
         match rest with
         | [] => none
         | d :: _ =>
           if d = 92 then some (0, 2)
           else (find_osc_terminator rest).map (fun p => (p.1 + 1, p.2))
       else (find_osc_terminator rest).map (fun p => (p.1 + 1, p.2))) := rfl

theorem find_osc_terminator_bounds :
    ∀ {l : List Nat} {pt : Nat × Nat},
      find_osc_terminator l = some pt → pt.1 + pt.2 ≤ l.length ∧ 1 ≤ pt.2 := by
  intro l
  induction l with
  | nil => intro pt h; simp [find_osc_terminator] at h
  | cons c rest ih =>
    intro pt h
    by_cases h7 : c = 7
    · simp only [find_osc_terminator, if_pos h7] at h
      cases h
      simp
    · by_cases h27 : c = 27
      · cases rest with
        | nil => simp [find_osc_terminator, h7, h27] at h
        | cons d ds =>
          by_cases h92 : d = 92
          · simp only [find_osc_terminator, if_neg h7, if_pos h27,
              if_pos h92] at h
            cases h
            simp
          · simp only [find_osc_terminator, if_neg h7, if_pos h27,
              if_neg h92, Option.map_eq_some'] at h
            rcases h with ⟨pt', hpt', rfl⟩
            have := ih hpt'
            simp only [List.length_cons] at this ⊢
            omega
      · simp only [find_osc_terminator, if_neg h7, if_neg h27,
          Option.map_eq_some'] at h
        rcases h with ⟨pt', hpt', rfl⟩
        have := ih hpt'
        simp only [List.length_cons] at this ⊢
        omega

theorem find_osc_terminator_append {l : List Nat} {pt : Nat × Nat}
    (e : List Nat) (h : find_osc_terminator l = some pt) :
    find_osc_terminator (l ++ e) = some pt := by
  induction l generalizing pt with
  | nil => simp [find_osc_terminator] at h
  | cons c rest ih =>
    by_cases h7 : c = 7
    · simpa [find_osc_step, h7] using h
    · by_cases h27 : c = 27
      · cases rest with
        | nil => simp [find_osc_step, h7, h27] at h
        | cons d ds =>
          by_cases h92 : d = 92
          · simpa [find_osc_step, h7, h27, h92] using h
          · rw [find_osc_step, if_neg h7, if_pos h27] at h
            simp only [if_neg h92, Option.map_eq_some'] at h
            rcases h with ⟨pt', hpt', rfl⟩
            have hrec := @ih pt' hpt'
            rw [List.cons_append]
            rw [find_osc_step, if_neg h7, if_pos h27]
            rw [List.cons_append] at hrec ⊢
            simp only [if_neg h92, hrec, Option.map_some']
      · rw [find_osc_step, if_neg h7, if_neg h27] at h
        simp only [Option.map_eq_some'] at h
        rcases h with ⟨pt', hpt', rfl⟩
        have hrec := @ih pt' hpt'
        rw [List.cons_append, find_osc_step, if_neg h7, if_neg h27, hrec,
          Option.map_some']

/-! ### Fuel irrelevance: any fuel of at least the input length gives the
value of the `process_chunk` scan loop. -/

theorem scanGo_fuel : ∀ (f g : Nat) (l : List Nat),
    l.length ≤ f → l.length ≤ g → scanGo f l = scanGo g l := by
  intro f
  induction f with
  | zero =>
    intro g l hf _
    have hl : l = [] := List.eq_nil_of_length_eq_zero (Nat.le_zero.mp hf)
    subst hl
    cases g with
    | zero => rfl
    | succ g' => simp [scanGo, capBuffer, MAX_PENDING]
  | succ f ih =>
    intro g l hf hg
    cases l with
    | nil =>
      cases g with
      | zero => simp [scanGo, capBuffer, MAX_PENDING]
      | succ g' => rfl
    | cons c rest =>
      cases g with
      | zero => simp at hg
      | succ g' =>
        have hrf : rest.length ≤ f := by
          simp only [List.length_cons] at hf; omega
        have hrg : rest.length ≤ g' := by
          simp only [List.length_cons] at hg; omega
        have h9 : MARKER_OSC.length = 9 := rfl
        have h6 : PROGRESS_OSC.length = 6 := rfl
        have hlen : (c :: rest).length = rest.length + 1 := rfl
        simp only [scanGo]
        split_ifs with h27 hstrict hmp hpp
        · rfl
        · cases hfind : find_osc_terminator
              ((c :: rest).drop MARKER_OSC.length) with
          | none => simp only [hfind]
          | some pt =>
            have hb := find_osc_terminator_bounds hfind
            have hdl : ((c :: rest).drop
                (MARKER_OSC.length + pt.1 + pt.2)).length ≤ f := by
              rw [List.length_drop]
              omega
            have hdg : ((c :: rest).drop
                (MARKER_OSC.length + pt.1 + pt.2)).length ≤ g' := by
              rw [List.length_drop]
              omega
            simp only [hfind,
              ih g' ((c :: rest).drop (MARKER_OSC.length + pt.1 + pt.2))
                hdl hdg]
        · cases hfind : find_osc_terminator
              ((c :: rest).drop PROGRESS_OSC.length) with
          | none => simp only [hfind]
          | some pt =>
            have hb := find_osc_terminator_bounds hfind
            have hdl : ((c :: rest).drop
                (PROGRESS_OSC.length + pt.1 + pt.2)).length ≤ f := by
              rw [List.length_drop]
              omega
            have hdg : ((c :: rest).drop
                (PROGRESS_OSC.length + pt.1 + pt.2)).length ≤ g' := by
              rw [List.length_drop]
              omega
            simp only [hfind,
              ih g' ((c :: rest).drop (PROGRESS_OSC.length + pt.1 + pt.2))
                hdl hdg]
        · simp only [ih g' rest hrf hrg]
        · simp only [ih g' rest hrf hrg]

/-- `scan` unfolds to `scanGo` at any sufficient fuel. -/
theorem scan_eq_scanGo {f : Nat} {l : List Nat} (h : l.length ≤ f) :
    scan l = scanGo f l :=
  scanGo_fuel l.length f l le_rfl h

/-! ### Branch lemmas for `scan` -/

theorem scan_cons_eq (c : Nat) (rest : List Nat) :
    scan (c :: rest) = scanGo (rest.length + 1) (c :: rest) := rfl

theorem scan_other {c : Nat} (rest : List Nat) (h : ¬ c = 27) :
    scan (c :: rest) =
      (c :: (scan rest).1, (scan rest).2.1, (scan rest).2.2) := by
  rw [scan_cons_eq]
  simp only [scanGo]
  rw [if_neg h, ← scan_eq_scanGo (le_refl rest.length)]

theorem scan_strict {l : List Nat} (h : strictLead l) :
    scan l = capBuffer l := by
  cases l with
  | nil => rfl
  | cons c rest =>
    have h27 : c = 27 := by
      rcases h with ⟨_, hlw⟩ | ⟨_, hlw⟩
      · have hw : (c == 27 &&
            leadsWith rest [93, 54, 51, 51, 59, 67, 90, 59]) = true := hlw
        simp only [Bool.and_eq_true, beq_iff_eq] at hw
        exact hw.1
      · have hw : (c == 27 &&
            leadsWith rest [93, 57, 59, 52, 59]) = true := hlw
        simp only [Bool.and_eq_true, beq_iff_eq] at hw
        exact hw.1
    subst h27
    rw [scan_cons_eq]
    simp only [scanGo, if_true]
    rw [if_pos h]

theorem scan_marker_event {l : List Nat} {pt : Nat × Nat} {ev : MarkerEvent}
    (hp : leadsWith MARKER_OSC l = true)
    (hfind : find_osc_terminator (l.drop MARKER_OSC.length) = some pt)
    (hparse : parse_marker_payload ((l.drop MARKER_OSC.length).take pt.1)
      = some ev) :
    scan l =
      ((scan (l.drop (MARKER_OSC.length + pt.1 + pt.2))).1,
       ev :: (scan (l.drop (MARKER_OSC.length + pt.1 + pt.2))).2.1,
       (scan (l.drop (MARKER_OSC.length + pt.1 + pt.2))).2.2) := by
  rcases (leadsWith_iff _ _).1 hp with ⟨t, rfl⟩
  have hl : MARKER_OSC ++ t =
      27 :: (93 :: 54 :: 51 :: 51 :: 59 :: 67 :: 90 :: 59 :: t) := rfl
  rw [hl] at hfind hparse ⊢
  have hstrict : ¬ strictLead
      (27 :: (93 :: 54 :: 51 :: 51 :: 59 :: 67 :: 90 :: 59 :: t)) := by
    rintro (⟨hlen, _⟩ | ⟨hlen, _⟩) <;>
      · simp only [List.length_cons, MARKER_OSC, PROGRESS_OSC,
          List.length_nil] at hlen
        omega
  have hp' : leadsWith MARKER_OSC
      (27 :: (93 :: 54 :: 51 :: 51 :: 59 :: 67 :: 90 :: 59 :: t)) = true := by
    rw [← hl]; exact hp
  rw [scan_cons_eq]
  simp only [scanGo, if_true]
  rw [if_neg hstrict, if_pos hp']
  simp only [hfind, hparse]
  have hb : ((27 :: (93 :: 54 :: 51 :: 51 :: 59 :: 67 :: 90 :: 59 :: t)).drop
      (MARKER_OSC.length + pt.1 + pt.2)).length ≤
      (93 :: 54 :: 51 :: 51 :: 59 :: 67 :: 90 :: 59 :: t).length := by
    rw [List.length_drop]
    simp only [List.length_cons, MARKER_OSC, List.length]
    omega
  rw [← scan_eq_scanGo hb]

theorem scan_marker_raw {l : List Nat} {pt : Nat × Nat}
    (hp : leadsWith MARKER_OSC l = true)
    (hfind : find_osc_terminator (l.drop MARKER_OSC.length) = some pt)
    (hparse : parse_marker_payload ((l.drop MARKER_OSC.length).take pt.1)
      = none) :
    scan l =
      (l.take (MARKER_OSC.length + pt.1 + pt.2) ++
        (scan (l.drop (MARKER_OSC.length + pt.1 + pt.2))).1,
       (scan (l.drop (MARKER_OSC.length + pt.1 + pt.2))).2.1,
       (scan (l.drop (MARKER_OSC.length + pt.1 + pt.2))).2.2) := by
  rcases (leadsWith_iff _ _).1 hp with ⟨t, rfl⟩
  have hl : MARKER_OSC ++ t =
      27 :: (93 :: 54 :: 51 :: 51 :: 59 :: 67 :: 90 :: 59 :: t) := rfl
  rw [hl] at hfind hparse ⊢
  have hstrict : ¬ strictLead
      (27 :: (93 :: 54 :: 51 :: 51 :: 59 :: 67 :: 90 :: 59 :: t)) := by
    rintro (⟨hlen, _⟩ | ⟨hlen, _⟩) <;>
      · simp only [List.length_cons, MARKER_OSC, PROGRESS_OSC,
          List.length_nil] at hlen
        omega
  have hp' : leadsWith MARKER_OSC
      (27 :: (93 :: 54 :: 51 :: 51 :: 59 :: 67 :: 90 :: 59 :: t)) = true := by
    rw [← hl]; exact hp
  rw [scan_cons_eq]
  simp only [scanGo, if_true]
  rw [if_neg hstrict, if_pos hp']
  simp only [hfind, hparse]
  have hb : ((27 :: (93 :: 54 :: 51 :: 51 :: 59 :: 67 :: 90 :: 59 :: t)).drop
      (MARKER_OSC.length + pt.1 + pt.2)).length ≤
      (93 :: 54 :: 51 :: 51 :: 59 :: 67 :: 90 :: 59 :: t).length := by
    rw [List.length_drop]
    simp only [List.length_cons, MARKER_OSC, List.length]
    omega
  rw [← scan_eq_scanGo hb]

theorem scan_marker_none {l : List Nat}
    (hp : leadsWith MARKER_OSC l = true)
    (hfind : find_osc_terminator (l.drop MARKER_OSC.length) = none) :
    scan l = capBuffer l := by
  rcases (leadsWith_iff _ _).1 hp with ⟨t, rfl⟩
  have hl : MARKER_OSC ++ t =
      27 :: (93 :: 54 :: 51 :: 51 :: 59 :: 67 :: 90 :: 59 :: t) := rfl
  rw [hl] at hfind ⊢
  have hstrict : ¬ strictLead
      (27 :: (93 :: 54 :: 51 :: 51 :: 59 :: 67 :: 90 :: 59 :: t)) := by
    rintro (⟨hlen, _⟩ | ⟨hlen, _⟩) <;>
      · simp only [List.length_cons, MARKER_OSC, PROGRESS_OSC,
          List.length_nil] at hlen
        omega
  have hp' : leadsWith MARKER_OSC
      (27 :: (93 :: 54 :: 51 :: 51 :: 59 :: 67 :: 90 :: 59 :: t)) = true := by
    rw [← hl]; exact hp
  rw [scan_cons_eq]
  simp only [scanGo, if_true]
  rw [if_neg hstrict, if_pos hp']
  simp only [hfind]

theorem scan_progress_event {l : List Nat} {pt : Nat × Nat} {ev : MarkerEvent}
    (hp : leadsWith PROGRESS_OSC l = true)
    (hfind : find_osc_terminator (l.drop PROGRESS_OSC.length) = some pt)
    (hparse : parse_progress_payload ((l.drop PROGRESS_OSC.length).take pt.1)
      = some ev) :
    scan l =
      ((scan (l.drop (PROGRESS_OSC.length + pt.1 + pt.2))).1,
       ev :: (scan (l.drop (PROGRESS_OSC.length + pt.1 + pt.2))).2.1,
       (scan (l.drop (PROGRESS_OSC.length + pt.1 + pt.2))).2.2) := by
  rcases (leadsWith_iff _ _).1 hp with ⟨t, rfl⟩
  have hl : PROGRESS_OSC ++ t =
      27 :: (93 :: 57 :: 59 :: 52 :: 59 :: t) := rfl
  rw [hl] at hfind hparse ⊢
  have hstrict : ¬ strictLead (27 :: (93 :: 57 :: 59 :: 52 :: 59 :: t)) := by
    rintro (⟨_, hlw⟩ | ⟨hlen, _⟩)
    · simp [leadsWith, MARKER_OSC] at hlw
    · simp only [List.length_cons, PROGRESS_OSC, List.length_nil] at hlen
      omega
  have hmp : leadsWith MARKER_OSC
      (27 :: (93 :: 57 :: 59 :: 52 :: 59 :: t)) = false := rfl
  have hpp : leadsWith PROGRESS_OSC
      (27 :: (93 :: 57 :: 59 :: 52 :: 59 :: t)) = true := by
    rw [← hl]; exact hp
  rw [scan_cons_eq]
  simp only [scanGo, if_true]
  rw [if_neg hstrict, if_neg (by simp [hmp]), if_pos hpp]
  simp only [hfind, hparse]
  have hb : ((27 :: (93 :: 57 :: 59 :: 52 :: 59 :: t)).drop
      (PROGRESS_OSC.length + pt.1 + pt.2)).length ≤
      (93 :: 57 :: 59 :: 52 :: 59 :: t).length := by
    rw [List.length_drop]
    simp only [List.length_cons, PROGRESS_OSC, List.length]
    omega
  rw [← scan_eq_scanGo hb]

theorem scan_progress_raw {l : List Nat} {pt : Nat × Nat}
    (hp : leadsWith PROGRESS_OSC l = true)
    (hfind : find_osc_terminator (l.drop PROGRESS_OSC.length) = some pt)
    (hparse : parse_progress_payload ((l.drop PROGRESS_OSC.length).take pt.1)
      = none) :
    scan l =
      (l.take (PROGRESS_OSC.length + pt.1 + pt.2) ++
        (scan (l.drop (PROGRESS_OSC.length + pt.1 + pt.2))).1,
       (scan (l.drop (PROGRESS_OSC.length + pt.1 + pt.2))).2.1,
       (scan (l.drop (PROGRESS_OSC.length + pt.1 + pt.2))).2.2) := by
  rcases (leadsWith_iff _ _).1 hp with ⟨t, rfl⟩
  have hl : PROGRESS_OSC ++ t =
      27 :: (93 :: 57 :: 59 :: 52 :: 59 :: t) := rfl
  rw [hl] at hfind hparse ⊢
  have hstrict : ¬ strictLead (27 :: (93 :: 57 :: 59 :: 52 :: 59 :: t)) := by
    rintro (⟨_, hlw⟩ | ⟨hlen, _⟩)
    · simp [leadsWith, MARKER_OSC] at hlw
    · simp only [List.length_cons, PROGRESS_OSC, List.length_nil] at hlen
      omega
  have hmp : leadsWith MARKER_OSC
      (27 :: (93 :: 57 :: 59 :: 52 :: 59 :: t)) = false := rfl
  have hpp : leadsWith PROGRESS_OSC
      (27 :: (93 :: 57 :: 59 :: 52 :: 59 :: t)) = true := by
    rw [← hl]; exact hp
  rw [scan_cons_eq]
  simp only [scanGo, if_true]
  rw [if_neg hstrict, if_neg (by simp [hmp]), if_pos hpp]
  simp only [hfind, hparse]
  have hb : ((27 :: (93 :: 57 :: 59 :: 52 :: 59 :: t)).drop
      (PROGRESS_OSC.length + pt.1 + pt.2)).length ≤
      (93 :: 57 :: 59 :: 52 :: 59 :: t).length := by
    rw [List.length_drop]
    simp only [List.length_cons, PROGRESS_OSC, List.length]
    omega
  rw [← scan_eq_scanGo hb]

theorem scan_progress_none {l : List Nat}
    (hp : leadsWith PROGRESS_OSC l = true)
    (hfind : find_osc_terminator (l.drop PROGRESS_OSC.length) = none) :
    scan l = capBuffer l := by
  rcases (leadsWith_iff _ _).1 hp with ⟨t, rfl⟩
  have hl : PROGRESS_OSC ++ t =
      27 :: (93 :: 57 :: 59 :: 52 :: 59 :: t) := rfl
  rw [hl] at hfind ⊢
  have hstrict : ¬ strictLead (27 :: (93 :: 57 :: 59 :: 52 :: 59 :: t)) := by
    rintro (⟨_, hlw⟩ | ⟨hlen, _⟩)
    · simp [leadsWith, MARKER_OSC] at hlw
    · simp only [List.length_cons, PROGRESS_OSC, List.length_nil] at hlen
      omega
  have hmp : leadsWith MARKER_OSC
      (27 :: (93 :: 57 :: 59 :: 52 :: 59 :: t)) = false := rfl
  have hpp : leadsWith PROGRESS_OSC
      (27 :: (93 :: 57 :: 59 :: 52 :: 59 :: t)) = true := by
    rw [← hl]; exact hp
  rw [scan_cons_eq]
  simp only [scanGo, if_true]
  rw [if_neg hstrict, if_neg (by simp [hmp]), if_pos hpp]
  simp only [hfind]

theorem scan_esc_other {rest : List Nat}
    (hstrict : ¬ strictLead (27 :: rest))
    (hmp : ¬ leadsWith MARKER_OSC (27 :: rest) = true)
    (hpp : ¬ leadsWith PROGRESS_OSC (27 :: rest) = true) :
    scan (27 :: rest) =
      (27 :: (scan rest).1, (scan rest).2.1, (scan rest).2.2) := by
  rw [scan_cons_eq]
  simp only [scanGo, if_true]
  rw [if_neg hstrict, if_neg hmp, if_neg hpp,
    ← scan_eq_scanGo (le_refl rest.length)]

/-! ### Bounds on the pending buffer -/

theorem capBuffer_pending_le (l : List Nat) :
    (capBuffer l).2.2.length ≤ l.length := by
  unfold capBuffer
  split_ifs <;> simp

theorem capBuffer_pending_le_max (l : List Nat) :
    (capBuffer l).2.2.length ≤ MAX_PENDING := by
  unfold capBuffer
  split_ifs with h
  · simp
  · simpa using Nat.le_of_not_lt h

theorem scan_pending_bounds : ∀ (n : Nat) (l : List Nat), l.length ≤ n →
    (scan l).2.2.length ≤ l.length ∧ (scan l).2.2.length ≤ MAX_PENDING := by
  intro n
  induction n with
  | zero =>
    intro l hl
    have : l = [] := List.eq_nil_of_length_eq_zero (Nat.le_zero.mp hl)
    subst this
    exact ⟨le_rfl, by simp [scan, scanGo, capBuffer, MAX_PENDING]⟩
  | succ m ih =>
    intro l hl
    have h9 : MARKER_OSC.length = 9 := rfl
    have h6 : PROGRESS_OSC.length = 6 := rfl
    cases l with
    | nil => exact ⟨le_rfl, by simp [scan, scanGo, capBuffer, MAX_PENDING]⟩
    | cons c rest =>
      have hrest : rest.length ≤ m := by
        simp only [List.length_cons] at hl; omega
      by_cases h27 : c = 27
      · subst h27
        by_cases hstrict : strictLead (27 :: rest)
        · rw [scan_strict hstrict]
          exact ⟨capBuffer_pending_le _, capBuffer_pending_le_max _⟩
        · by_cases hmp : leadsWith MARKER_OSC (27 :: rest) = true
          · cases hfind : find_osc_terminator
                ((27 :: rest).drop MARKER_OSC.length) with
            | none =>
              rw [scan_marker_none hmp hfind]
              exact ⟨capBuffer_pending_le _, capBuffer_pending_le_max _⟩
            | some pt =>
              have hdrop : ((27 :: rest).drop
                  (MARKER_OSC.length + pt.1 + pt.2)).length ≤ m := by
                rw [List.length_drop]
                simp only [List.length_cons]
                omega
              have hrec := ih _ hdrop
              have hlen : ((27 :: rest).drop
                  (MARKER_OSC.length + pt.1 + pt.2)).length ≤
                  (27 :: rest).length := by
                rw [List.length_drop]; omega
              cases hparse : parse_marker_payload
                  (((27 :: rest).drop MARKER_OSC.length).take pt.1) with
              | some ev =>
                rw [scan_marker_event hmp hfind hparse]
                exact ⟨le_trans hrec.1 hlen, hrec.2⟩
              | none =>
                rw [scan_marker_raw hmp hfind hparse]
                exact ⟨le_trans hrec.1 hlen, hrec.2⟩
          · by_cases hpp : leadsWith PROGRESS_OSC (27 :: rest) = true
            · cases hfind : find_osc_terminator
                  ((27 :: rest).drop PROGRESS_OSC.length) with
              | none =>
                rw [scan_progress_none hpp hfind]
                exact ⟨capBuffer_pending_le _, capBuffer_pending_le_max _⟩
              | some pt =>
                have hdrop : ((27 :: rest).drop
                    (PROGRESS_OSC.length + pt.1 + pt.2)).length ≤ m := by
                  rw [List.length_drop]
                  simp only [List.length_cons]
                  omega
                have hrec := ih _ hdrop
                have hlen : ((27 :: rest).drop
                    (PROGRESS_OSC.length + pt.1 + pt.2)).length ≤
                    (27 :: rest).length := by
                  rw [List.length_drop]; omega
                cases hparse : parse_progress_payload
                    (((27 :: rest).drop PROGRESS_OSC.length).take pt.1) with
                | some ev =>
                  rw [scan_progress_event hpp hfind hparse]
                  exact ⟨le_trans hrec.1 hlen, hrec.2⟩
                | none =>
                  rw [scan_progress_raw hpp hfind hparse]
                  exact ⟨le_trans hrec.1 hlen, hrec.2⟩
            · rw [scan_esc_other hstrict hmp hpp]
              have hrec := ih rest hrest
              exact ⟨le_trans hrec.1 (by simp), hrec.2⟩
      · rw [scan_other rest h27]
        have hrec := ih rest hrest
        exact ⟨le_trans hrec.1 (by simp), hrec.2⟩

theorem scan_pending_le (l : List Nat) :
    (scan l).2.2.length ≤ l.length :=
  (scan_pending_bounds l.length l le_rfl).1

theorem scan_pending_le_max (l : List Nat) :
    (scan l).2.2.length ≤ MAX_PENDING :=
  (scan_pending_bounds l.length l le_rfl).2

/-! ### Chunk-split invariance: scanning `x ++ b` is scanning `x`, then
scanning the stashed pending buffer followed by `b`. -/

theorem capBuffer_small {l : List Nat} (h : l.length ≤ MAX_PENDING) :
    capBuffer l = ([], [], l) := by
  unfold capBuffer
  rw [if_neg (by omega)]

theorem scan_append : ∀ (n : Nat) (x b : List Nat), x.length ≤ n →
    x.length ≤ MAX_PENDING →
    scan (x ++ b) =
      ((scan x).1 ++ (scan ((scan x).2.2 ++ b)).1,
       (scan x).2.1 ++ (scan ((scan x).2.2 ++ b)).2.1,
       (scan ((scan x).2.2 ++ b)).2.2) := by
  intro n
  induction n with
  | zero =>
    intro x b hn _
    have hx : x = [] := List.eq_nil_of_length_eq_zero (Nat.le_zero.mp hn)
    subst hx
    simp [show scan ([] : List Nat) = ([], [], []) from rfl]
  | succ m ih =>
    intro x b hn hmax
    have h9 : MARKER_OSC.length = 9 := rfl
    have h6 : PROGRESS_OSC.length = 6 := rfl
    cases x with
    | nil => simp [show scan ([] : List Nat) = ([], [], []) from rfl]
    | cons c rest =>
      have hrest : rest.length ≤ m := by
        simp only [List.length_cons] at hn; omega
      have hrestmax : rest.length ≤ MAX_PENDING := by
        simp only [List.length_cons] at hmax; omega
      by_cases h27 : c = 27
      · subst h27
        by_cases hstrict : strictLead (27 :: rest)
        · rw [scan_strict hstrict, capBuffer_small hmax]
          simp
        · by_cases hmp : leadsWith MARKER_OSC (27 :: rest) = true
          · have hx9 : MARKER_OSC.length ≤ (27 :: rest).length :=
              leadsWith_length hmp
            have hmp' : leadsWith MARKER_OSC ((27 :: rest) ++ b) = true :=
              leadsWith_append_right b hmp
            have hdropapp : ((27 :: rest) ++ b).drop MARKER_OSC.length =
                (27 :: rest).drop MARKER_OSC.length ++ b :=
              List.drop_append_of_le_length hx9
            cases hfind : find_osc_terminator
                ((27 :: rest).drop MARKER_OSC.length) with
            | none =>
              rw [scan_marker_none hmp hfind, capBuffer_small hmax]
              simp
            | some pt =>
              have hfind' : find_osc_terminator
                  (((27 :: rest) ++ b).drop MARKER_OSC.length) = some pt := by
                rw [hdropapp]
                exact find_osc_terminator_append b hfind
              have hb := find_osc_terminator_bounds hfind
              have hld : ((27 :: rest).drop MARKER_OSC.length).length =
                  (27 :: rest).length - MARKER_OSC.length :=
                List.length_drop _ _
              have htake : (((27 :: rest) ++ b).drop MARKER_OSC.length).take
                  pt.1 = ((27 :: rest).drop MARKER_OSC.length).take pt.1 := by
                rw [hdropapp]
                exact List.take_append_of_le_length (by omega)
              have hcons : MARKER_OSC.length + pt.1 + pt.2 ≤
                  (27 :: rest).length := by
                simp only [List.length_cons] at hld ⊢
                omega
              have hdrop2 : ((27 :: rest) ++ b).drop
                  (MARKER_OSC.length + pt.1 + pt.2) =
                  (27 :: rest).drop (MARKER_OSC.length + pt.1 + pt.2) ++ b :=
                List.drop_append_of_le_length hcons
              have htake2 : ((27 :: rest) ++ b).take
                  (MARKER_OSC.length + pt.1 + pt.2) =
                  (27 :: rest).take (MARKER_OSC.length + pt.1 + pt.2) :=
                List.take_append_of_le_length hcons
              have hD : ((27 :: rest).drop
                  (MARKER_OSC.length + pt.1 + pt.2)).length ≤ m := by
                rw [List.length_drop]
                simp only [List.length_cons] at hn ⊢
                omega
              have hDmax : ((27 :: rest).drop
                  (MARKER_OSC.length + pt.1 + pt.2)).length ≤ MAX_PENDING := by
                rw [List.length_drop]
                omega
              cases hparse : parse_marker_payload
                  (((27 :: rest).drop MARKER_OSC.length).take pt.1) with
              | some ev =>
                have hparse' : parse_marker_payload
                    ((((27 :: rest) ++ b).drop MARKER_OSC.length).take pt.1)
                    = some ev := by rw [htake]; exact hparse
                rw [scan_marker_event hmp' hfind' hparse', hdrop2,
                  ih _ b hD hDmax, scan_marker_event hmp hfind hparse]
                simp
              | none =>
                have hparse' : parse_marker_payload
                    ((((27 :: rest) ++ b).drop MARKER_OSC.length).take pt.1)
                    = none := by rw [htake]; exact hparse
                rw [scan_marker_raw hmp' hfind' hparse', hdrop2, htake2,
                  ih _ b hD hDmax, scan_marker_raw hmp hfind hparse]
                simp [List.append_assoc]
          · by_cases hpp : leadsWith PROGRESS_OSC (27 :: rest) = true
            · have hx6 : PROGRESS_OSC.length ≤ (27 :: rest).length :=
                leadsWith_length hpp
              have hpp' : leadsWith PROGRESS_OSC ((27 :: rest) ++ b) = true :=
                leadsWith_append_right b hpp
              have hdropapp : ((27 :: rest) ++ b).drop PROGRESS_OSC.length =
                  (27 :: rest).drop PROGRESS_OSC.length ++ b :=
                List.drop_append_of_le_length hx6
              cases hfind : find_osc_terminator
                  ((27 :: rest).drop PROGRESS_OSC.length) with
              | none =>
                rw [scan_progress_none hpp hfind, capBuffer_small hmax]
                simp
              | some pt =>
                have hfind' : find_osc_terminator
                    (((27 :: rest) ++ b).drop PROGRESS_OSC.length)
                    = some pt := by
                  rw [hdropapp]
                  exact find_osc_terminator_append b hfind
                have hb := find_osc_terminator_bounds hfind
                have hld : ((27 :: rest).drop PROGRESS_OSC.length).length =
                    (27 :: rest).length - PROGRESS_OSC.length :=
                  List.length_drop _ _
                have htake : (((27 :: rest) ++ b).drop
                    PROGRESS_OSC.length).take pt.1 =
                    ((27 :: rest).drop PROGRESS_OSC.length).take pt.1 := by
                  rw [hdropapp]
                  exact List.take_append_of_le_length (by omega)
                have hcons : PROGRESS_OSC.length + pt.1 + pt.2 ≤
                    (27 :: rest).length := by
                  simp only [List.length_cons] at hld ⊢
                  omega
                have hdrop2 : ((27 :: rest) ++ b).drop
                    (PROGRESS_OSC.length + pt.1 + pt.2) =
                    (27 :: rest).drop (PROGRESS_OSC.length + pt.1 + pt.2)
                      ++ b :=
                  List.drop_append_of_le_length hcons
                have htake2 : ((27 :: rest) ++ b).take
                    (PROGRESS_OSC.length + pt.1 + pt.2) =
                    (27 :: rest).take (PROGRESS_OSC.length + pt.1 + pt.2) :=
                  List.take_append_of_le_length hcons
                have hD : ((27 :: rest).drop
                    (PROGRESS_OSC.length + pt.1 + pt.2)).length ≤ m := by
                  rw [List.length_drop]
                  simp only [List.length_cons] at hn ⊢
                  omega
                have hDmax : ((27 :: rest).drop
                    (PROGRESS_OSC.length + pt.1 + pt.2)).length ≤
                    MAX_PENDING := by
                  rw [List.length_drop]
                  omega
                cases hparse : parse_progress_payload
                    (((27 :: rest).drop PROGRESS_OSC.length).take pt.1) with
                | some ev =>
                  have hparse' : parse_progress_payload
                      ((((27 :: rest) ++ b).drop PROGRESS_OSC.length).take
                        pt.1) = some ev := by rw [htake]; exact hparse
                  rw [scan_progress_event hpp' hfind' hparse', hdrop2,
                    ih _ b hD hDmax, scan_progress_event hpp hfind hparse]
                  simp
                | none =>
                  have hparse' : parse_progress_payload
                      ((((27 :: rest) ++ b).drop PROGRESS_OSC.length).take
                        pt.1) = none := by rw [htake]; exact hparse
                  rw [scan_progress_raw hpp' hfind' hparse', hdrop2, htake2,
                    ih _ b hD hDmax, scan_progress_raw hpp hfind hparse]
                  simp [List.append_assoc]
            · have hstrict' : ¬ strictLead (27 :: (rest ++ b)) := by
                rintro (⟨hlen, hlw⟩ | ⟨hlen, hlw⟩)
                · refine hstrict (Or.inl
                    ⟨?_, @leadsWith_of_appendLeft (27 :: rest) b MARKER_OSC
                      hlw⟩)
                  simp only [List.length_cons, List.length_append]
                    at hlen ⊢
                  omega
                · refine hstrict (Or.inr
                    ⟨?_, @leadsWith_of_appendLeft (27 :: rest) b PROGRESS_OSC
                      hlw⟩)
                  simp only [List.length_cons, List.length_append]
                    at hlen ⊢
                  omega
              have hmp' : ¬ leadsWith MARKER_OSC (27 :: (rest ++ b))
                  = true := by
                intro hw
                rw [← List.cons_append] at hw
                by_cases hc : MARKER_OSC.length ≤ (27 :: rest).length
                · exact hmp (leadsWith_of_append_le hw hc)
                · push_neg at hc
                  rcases (leadsWith_iff _ _).1 hw with ⟨t, ht⟩
                  have h1 : ((27 :: rest) ++ b).take (27 :: rest).length =
                      27 :: rest := List.take_left _ b
                  rw [ht, List.take_append_of_le_length (le_of_lt hc)] at h1
                  have hlw : leadsWith (27 :: rest) MARKER_OSC = true := by
                    rw [← h1]
                    exact leadsWith_take _ _
                  exact hstrict (Or.inl ⟨hc, hlw⟩)
              have hpp' : ¬ leadsWith PROGRESS_OSC (27 :: (rest ++ b))
                  = true := by
                intro hw
                rw [← List.cons_append] at hw
                by_cases hc : PROGRESS_OSC.length ≤ (27 :: rest).length
                · exact hpp (leadsWith_of_append_le hw hc)
                · push_neg at hc
                  rcases (leadsWith_iff _ _).1 hw with ⟨t, ht⟩
                  have h1 : ((27 :: rest) ++ b).take (27 :: rest).length =
                      27 :: rest := List.take_left _ b
                  rw [ht, List.take_append_of_le_length (le_of_lt hc)] at h1
                  have hlw : leadsWith (27 :: rest) PROGRESS_OSC = true := by
                    rw [← h1]
                    exact leadsWith_take _ _
                  exact hstrict (Or.inr ⟨hc, hlw⟩)
              rw [List.cons_append, scan_esc_other hstrict' hmp' hpp',
                ih rest b hrest hrestmax, scan_esc_other hstrict hmp hpp]
              simp
      · rw [List.cons_append, scan_other (rest ++ b) h27,
          ih rest b hrest hrestmax, scan_other rest h27]
        simp

theorem runChunks_eq_scan : ∀ (cs : List (List Nat)) (p : List Nat),
    cs ≠ [] → (p ++ cs.flatten).length ≤ MAX_PENDING →
    runChunks p cs = scan (p ++ cs.flatten) := by
  intro cs
  induction cs with
  | nil => intro p h _; exact absurd rfl h
  | cons c cs ih =>
    intro p _ hlen
    cases cs with
    | nil =>
      simp [runChunks, OscMarkerParser.process_chunk]
    | cons c2 cs2 =>
      have hflat : (c :: c2 :: cs2).flatten = c ++ (c2 :: cs2).flatten := rfl
      rw [hflat] at hlen ⊢
      have h1 : (p ++ c).length ≤ MAX_PENDING := by
        simp only [List.length_append] at hlen ⊢
        omega
      have hpend := scan_pending_le (p ++ c)
      have h2 : ((scan (p ++ c)).2.2 ++ (c2 :: cs2).flatten).length ≤
          MAX_PENDING := by
        simp only [List.length_append] at hlen hpend ⊢
        omega
      have happ := scan_append (p ++ c).length (p ++ c) ((c2 :: cs2).flatten)
        le_rfl h1
      rw [← List.append_assoc, happ]
      show ((scan (p ++ c)).1 ++ (runChunks (scan (p ++ c)).2.2
              (c2 :: cs2)).1,
            (scan (p ++ c)).2.1 ++ (runChunks (scan (p ++ c)).2.2
              (c2 :: cs2)).2.1,
            (runChunks (scan (p ++ c)).2.2 (c2 :: cs2)).2.2) = _
      rw [ih _ (by simp) h2]

/-! ### The cap as a post-step on the uncapped scan -/

theorem postCap_cons (a : Nat) (r : List Nat × List MarkerEvent × List Nat) :
    (a :: (postCap r).1, (postCap r).2.1, (postCap r).2.2) =
      postCap (a :: r.1, r.2.1, r.2.2) := by
  unfold postCap
  split_ifs <;> simp

theorem postCap_append (o : List Nat)
    (r : List Nat × List MarkerEvent × List Nat) :
    (o ++ (postCap r).1, (postCap r).2.1, (postCap r).2.2) =
      postCap (o ++ r.1, r.2.1, r.2.2) := by
  unfold postCap
  split_ifs <;> simp

theorem postCap_cons_ev (ev : MarkerEvent)
    (r : List Nat × List MarkerEvent × List Nat) :
    ((postCap r).1, ev :: (postCap r).2.1, (postCap r).2.2) =
      postCap (r.1, ev :: r.2.1, r.2.2) := by
  unfold postCap
  split_ifs <;> simp

theorem capBuffer_eq_postCap (l : List Nat) :
    capBuffer l = postCap ([], [], l) := by
  unfold capBuffer postCap
  split_ifs <;> simp

theorem scanGo_cap : ∀ (f : Nat) (l : List Nat), l.length ≤ f →
    scanGo f l = postCap (scanUncappedGo f l) := by
  intro f
  induction f with
  | zero =>
    intro l hl
    have hn : l = [] := List.eq_nil_of_length_eq_zero (Nat.le_zero.mp hl)
    subst hn
    simp [scanGo, scanUncappedGo, capBuffer, postCap, MAX_PENDING]
  | succ m ih =>
    intro l hl
    cases l with
    | nil => simp [scanGo, scanUncappedGo, postCap, MAX_PENDING]
    | cons c rest =>
      have hrest : rest.length ≤ m := by
        simp only [List.length_cons] at hl; omega
      by_cases h27 : c = 27
      · subst h27
        by_cases hstrict : strictLead (27 :: rest)
        · simp only [scanGo, scanUncappedGo, if_true]
          rw [if_pos hstrict, if_pos hstrict]
          exact capBuffer_eq_postCap _
        · by_cases hmp : leadsWith MARKER_OSC (27 :: rest) = true
          · cases hfind : find_osc_terminator
                ((27 :: rest).drop MARKER_OSC.length) with
            | none =>
              simp only [scanGo, scanUncappedGo, if_true]
              rw [if_neg hstrict, if_neg hstrict, if_pos hmp, if_pos hmp]
              simp only [hfind]
              exact capBuffer_eq_postCap _
            | some pt =>
              have hb := find_osc_terminator_bounds hfind
              have hdl : ((27 :: rest).drop
                  (MARKER_OSC.length + pt.1 + pt.2)).length ≤ m := by
                rw [List.length_drop]
                simp only [List.length_cons]
                omega
              cases hparse : parse_marker_payload
                  (((27 :: rest).drop MARKER_OSC.length).take pt.1) with
              | some ev =>
                simp only [scanGo, scanUncappedGo, if_true]
                rw [if_neg hstrict, if_neg hstrict, if_pos hmp, if_pos hmp]
                simp only [hfind, hparse, ih _ hdl]
                exact postCap_cons_ev ev _
              | none =>
                simp only [scanGo, scanUncappedGo, if_true]
                rw [if_neg hstrict, if_neg hstrict, if_pos hmp, if_pos hmp]
                simp only [hfind, hparse, ih _ hdl]
                exact postCap_append _ _
          · by_cases hpp : leadsWith PROGRESS_OSC (27 :: rest) = true
            · cases hfind : find_osc_terminator
                  ((27 :: rest).drop PROGRESS_OSC.length) with
              | none =>
                simp only [scanGo, scanUncappedGo, if_true]
                rw [if_neg hstrict, if_neg hstrict, if_neg hmp, if_neg hmp,
                  if_pos hpp, if_pos hpp]
                simp only [hfind]
                exact capBuffer_eq_postCap _
              | some pt =>
                have hb := find_osc_terminator_bounds hfind
                have hdl : ((27 :: rest).drop
                    (PROGRESS_OSC.length + pt.1 + pt.2)).length ≤ m := by
                  rw [List.length_drop]
                  simp only [List.length_cons]
                  omega
                cases hparse : parse_progress_payload
                    (((27 :: rest).drop PROGRESS_OSC.length).take pt.1) with
                | some ev =>
                  simp only [scanGo, scanUncappedGo, if_true]
                  rw [if_neg hstrict, if_neg hstrict, if_neg hmp, if_neg hmp,
                    if_pos hpp, if_pos hpp]
                  simp only [hfind, hparse, ih _ hdl]
                  exact postCap_cons_ev ev _
                | none =>
                  simp only [scanGo, scanUncappedGo, if_true]
                  rw [if_neg hstrict, if_neg hstrict, if_neg hmp, if_neg hmp,
                    if_pos hpp, if_pos hpp]
                  simp only [hfind, hparse, ih _ hdl]
                  exact postCap_append _ _
            · simp only [scanGo, scanUncappedGo, if_true]
              rw [if_neg hstrict, if_neg hstrict, if_neg hmp, if_neg hmp,
                if_neg hpp, if_neg hpp]
              simp only [ih rest hrest]
              exact postCap_cons 27 _
      · simp only [scanGo, scanUncappedGo, if_neg h27, ih rest hrest]
        exact postCap_cons c _

/-- The capped scan is the uncapped scan followed by the cap flush. -/
theorem scan_eq_postCap_scanUncapped (l : List Nat) :
    scan l = postCap (scanUncapped l) :=
  scanGo_cap l.length l le_rfl

/-! ### Helper lemmas for single terminated sequences -/

theorem stripLead_isSome (pat l : List Nat) :
    (stripLead pat l).isSome = leadsWith pat l := by
  induction pat generalizing l with
  | nil => simp [stripLead, leadsWith]
  | cons p ps ih =>
    cases l with
    | nil => simp [stripLead, leadsWith]
    | cons c cs =>
      by_cases h : p = c
      · simp [stripLead, leadsWith, h, ih]
      · simp [stripLead, leadsWith, h]

/-! ## The claims -/

/-- **C1**: for every session, `is_busy()` is false if the session is not
alive; otherwise it is true if `command_running` is true; otherwise, if
`progress_observed` is true, it equals `progress_running` (unaffected by the
`active` flag, which does not appear in that branch); otherwise it equals
`active`. -/
theorem claim_C1_is_busy_precedence (f : SessionFlags) :
    PtySession.is_busy f =
      (f.alive && (f.command_running ||
        (if f.progress_observed then f.progress_running else f.active))) := by
  unfold PtySession.is_busy
  cases ha : f.alive <;> cases hc : f.command_running <;>
    cases hp : f.progress_observed <;> simp [ha, hc, hp]

/-- **C2**: for every split of the byte sequence
`ESC]633;CZ;START BEL hello ESC]633;CZ;END;0 BEL` into arbitrarily many
consecutive chunks, feeding the chunks in order to a fresh parser yields
concatenated cleaned output `hello` and exactly the events `CommandStart`
then `CommandEnd 0`, independent of the split points. -/
theorem claim_C2_chunk_split_invariance (cs : List (List Nat))
    (h : cs.flatten = splitDemoBytes) :
    runChunks [] cs =
      ([104, 101, 108, 108, 111],
       [MarkerEvent.commandStart, MarkerEvent.commandEnd (some 0)], []) := by
  have hne : cs ≠ [] := by
    intro hc
    subst hc
    exact absurd h (by decide)
  have hlen : (([] : List Nat) ++ cs.flatten).length ≤ MAX_PENDING := by
    rw [h]
    decide
  rw [runChunks_eq_scan cs [] hne hlen, h]
  decide

theorem claim_C2_chunk_split_invariance_witness :
    splitDemoChunks.flatten = splitDemoBytes ∧
    runChunks [] splitDemoChunks =
      ([104, 101, 108, 108, 111],
       [MarkerEvent.commandStart, MarkerEvent.commandEnd (some 0)], []) :=
  ⟨by decide, claim_C2_chunk_split_invariance splitDemoChunks (by decide)⟩

/-- **C3 counterexample**: the reader applies marker events without edge
detection.  A chunk holding two `START` sequences parses to two
`CommandStart` marker events; applying the second leaves every flag
unchanged (`command_running` was already true) yet still sends a second
`CommandStart` on the channel — two `CommandStart` events with no
intervening `CommandEnd`. -/
theorem claim_C3_counterexample :
    (OscMarkerParser.process_chunk []
        ((MARKER_OSC ++ [83, 84, 65, 82, 84, 7]) ++
         (MARKER_OSC ++ [83, 84, 65, 82, 84, 7]))).2.1 =
      [MarkerEvent.commandStart, MarkerEvent.commandStart] ∧
    (applyMarkerEvent (applyMarkerEvent (initialFlags 24 80) 0
        MarkerEvent.commandStart).1 0 MarkerEvent.commandStart).1 =
      (applyMarkerEvent (initialFlags 24 80) 0 MarkerEvent.commandStart).1 ∧
    (applyMarkerEvent (applyMarkerEvent (initialFlags 24 80) 0
        MarkerEvent.commandStart).1 0 MarkerEvent.commandStart).2 =
      [PtyEvent.commandStart] := by
  refine ⟨by decide, by decide, by decide⟩

/-- **C3 amended**: only output-source `Activity` events are edge-detected —
the reader's clean-data step emits `Activity{true, output}` exactly when it
changes `active`, and the watchdog emits `Activity{false, output}` exactly
when it changes `active`.  Marker events are not edge-detected:
`CommandStart` and `CommandEnd` are sent unconditionally for every parsed
boundary marker, `Activity{true, progress}` unconditionally for every
active progress marker, and for an idle progress marker
`Activity{false, progress}` is sent exactly when `command_running` is false
at that moment — gated on `command_running`, never on whether the
corresponding flag actually changes value. -/
theorem claim_C3_amended_edge_detection (f : SessionFlags) (now : Int)
    (clean : List Nat) (code : Option Int) :
    ((PtyEvent.activity true PtyActivitySource.output ∈
        (cleanDataStep f now clean).2) ↔
      ¬ (cleanDataStep f now clean).1.active = f.active) ∧
    ((PtyEvent.activity false PtyActivitySource.output ∈
        (watchdogStep f now).2) ↔
      ¬ (watchdogStep f now).1.active = f.active) ∧
    (applyMarkerEvent f now MarkerEvent.commandStart).2 =
      [PtyEvent.commandStart] ∧
    (applyMarkerEvent f now (MarkerEvent.commandEnd code)).2 =
      [PtyEvent.commandEnd code] ∧
    (applyMarkerEvent f now (MarkerEvent.progress true)).2 =
      [PtyEvent.activity true PtyActivitySource.progress] ∧
    (applyMarkerEvent f now (MarkerEvent.progress false)).2 =
      (if f.command_running then []
       else [PtyEvent.activity false PtyActivitySource.progress]) := by
  refine ⟨?_, ?_, rfl, rfl, rfl, ?_⟩
  · unfold cleanDataStep
    split_ifs with h1 h2
    · simp
    · cases ha : f.active <;> simp [ha]
    · simp
  · unfold watchdogStep
    split_ifs with h1 h2 h3
    all_goals simp_all
  · unfold applyMarkerEvent
    cases h : f.command_running <;> simp [h]

/-- **C4 counterexample**: `PtyManager::kill` on an identifier absent from
the registry returns `Ok` and leaves the manager unchanged — it does not
fail with "session not found" as the claim demands for all three of
write/resize/kill. -/
theorem claim_C4_counterexample :
    (PtyManager.kill ⟨[]⟩ "missing").2 = Except.ok () ∧
    (PtyManager.kill ⟨[]⟩ "missing").1 = ⟨[]⟩ := by
  refine ⟨rfl, rfl⟩

/-- **C4 amended**: for an identifier absent from the registry, `write` and
`resize` fail with the "Session not found" error; `kill` silently succeeds,
returning `Ok` and leaving the registry unchanged. -/
theorem claim_C4_amended_unknown_id (m : PtyManager) (id : String)
    (data : List Nat) (rows cols : Nat) (now : Int)
    (h : m.sessions.lookup id = none) :
    PtyManager.write m id data = Except.error "Session not found" ∧
    PtyManager.resize m id rows cols now =
      Except.error "Session not found" ∧
    (PtyManager.kill m id).2 = Except.ok () ∧
    (PtyManager.kill m id).1 = m := by
  unfold PtyManager.write PtyManager.resize PtyManager.kill
  rw [h]
  exact ⟨rfl, rfl, rfl, rfl⟩

theorem claim_C4_amended_unknown_id_witness :
    (PtyManager.mk []).sessions.lookup "x" = none ∧
    (PtyManager.write ⟨[]⟩ "x" [] = Except.error "Session not found" ∧
     PtyManager.resize ⟨[]⟩ "x" 24 80 0 =
       Except.error "Session not found" ∧
     (PtyManager.kill ⟨[]⟩ "x").2 = Except.ok () ∧
     (PtyManager.kill ⟨[]⟩ "x").1 = ⟨[]⟩) :=
  ⟨rfl, claim_C4_amended_unknown_id ⟨[]⟩ "x" [] 24 80 0 rfl⟩

/-- **C5 counterexample**: the payload `END;nope` is neither `START` nor
`END;<digits>`, yet the parser emits `CommandEnd{exit_code: none}` for it
and strips the sequence from the cleaned output instead of copying the raw
bytes through. -/
theorem claim_C5_counterexample :
    specBoundaryForm [69, 78, 68, 59, 110, 111, 112, 101] = false ∧
    scan (MARKER_OSC ++ ([69, 78, 68, 59, 110, 111, 112, 101] ++ [7])) =
      ([], [MarkerEvent.commandEnd none], []) := by
  refine ⟨by decide, by decide⟩

/-- **C5 amended**: for every terminated boundary-marker sequence —
introducer, a payload, and a BEL or ESC-backslash terminator, where that
terminator is the first one the scanner finds (payloads may contain ESC
bytes not followed by backslash, which the scanner skips) — an event is
produced exactly when `parse_marker_payload` succeeds, that is, when the
payload is valid UTF-8 and its trimmed text is `START` or starts with
`END;` (any suffix; a non-numeric or out-of-range suffix gives
`exit_code = none`); on parse failure the entire raw sequence, introducer
and terminator included, is copied through unchanged. -/
theorem claim_C5_amended_boundary_parse (payload term : List Nat)
    (_hterm : term = [7] ∨ term = [27, 92])
    (hfind : find_osc_terminator (payload ++ term) =
      some (payload.length, term.length)) :
    scan (MARKER_OSC ++ (payload ++ term)) =
      (match parse_marker_payload payload with
       | some ev => ([], [ev], [])
       | none => (MARKER_OSC ++ (payload ++ term), [], [])) ∧
    ((parse_marker_payload payload).isSome = true ↔
      ∃ cps, utf8Decode payload = some cps ∧
        (rustTrim cps = sSTART ∨
          leadsWith sENDSEMI (rustTrim cps) = true)) := by
  constructor
  · have hp : leadsWith MARKER_OSC
        (MARKER_OSC ++ (payload ++ term)) = true :=
      (leadsWith_iff _ _).2 ⟨payload ++ term, rfl⟩
    have hdrop : (MARKER_OSC ++ (payload ++ term)).drop MARKER_OSC.length
        = payload ++ term := List.drop_left _ _
    have hfind' : find_osc_terminator
        ((MARKER_OSC ++ (payload ++ term)).drop MARKER_OSC.length)
        = some (payload.length, term.length) := by
      rw [hdrop]
      exact hfind
    have hpay : ((MARKER_OSC ++ (payload ++ term)).drop
        MARKER_OSC.length).take
        ((payload.length, term.length) : Nat × Nat).1 = payload := by
      rw [hdrop]
      exact List.take_left payload term
    have hdropall : (MARKER_OSC ++ (payload ++ term)).drop
        (MARKER_OSC.length +
          ((payload.length, term.length) : Nat × Nat).1 +
          ((payload.length, term.length) : Nat × Nat).2) = [] := by
      apply List.drop_eq_nil_of_le
      simp only [List.length_append]
      omega
    have htakeall : (MARKER_OSC ++ (payload ++ term)).take
        (MARKER_OSC.length +
          ((payload.length, term.length) : Nat × Nat).1 +
          ((payload.length, term.length) : Nat × Nat).2) =
        MARKER_OSC ++ (payload ++ term) := by
      apply List.take_of_length_le
      simp only [List.length_append]
      omega
    cases hparse : parse_marker_payload payload with
    | some ev =>
      have hev := scan_marker_event hp hfind' (by rw [hpay]; exact hparse)
      rw [hev, hdropall]
      rfl
    | none =>
      have hraw := scan_marker_raw hp hfind' (by rw [hpay]; exact hparse)
      rw [hraw, hdropall, htakeall]
      simp [show scan ([] : List Nat) = ([], [], []) from rfl]
  · cases hdec : utf8Decode payload with
    | none => simp [parse_marker_payload, hdec]
    | some cps =>
      by_cases hstart : rustTrim cps = sSTART
      · simp only [parse_marker_payload, hdec, if_pos hstart]
        exact ⟨fun _ => ⟨cps, rfl, Or.inl hstart⟩, fun _ => rfl⟩
      · simp only [parse_marker_payload, hdec, if_neg hstart]
        cases hstrip : stripLead sENDSEMI (rustTrim cps) with
        | some code =>
          have hlw : leadsWith sENDSEMI (rustTrim cps) = true := by
            rw [← stripLead_isSome, hstrip]
            rfl
          exact ⟨fun _ => ⟨cps, rfl, Or.inr hlw⟩, fun _ => rfl⟩
        | none =>
          constructor
          · intro h
            simp at h
          · rintro ⟨cps', hcps', hor⟩
            injection hcps' with hcps'
            subst hcps'
            rcases hor with h1 | h2
            · exact absurd h1 hstart
            · rw [← stripLead_isSome, hstrip] at h2
              simp at h2

theorem claim_C5_amended_boundary_parse_witness :
    ((([27, 92] : List Nat) = [7] ∨ ([27, 92] : List Nat) = [27, 92]) ∧
     find_osc_terminator (([88, 27, 90] : List Nat) ++ [27, 92]) =
       some (([88, 27, 90] : List Nat).length,
         ([27, 92] : List Nat).length)) ∧
    (scan (MARKER_OSC ++ (([88, 27, 90] : List Nat) ++ [27, 92])) =
      (match parse_marker_payload [88, 27, 90] with
       | some ev => ([], [ev], [])
       | none => (MARKER_OSC ++ (([88, 27, 90] : List Nat) ++ [27, 92]),
                  [], [])) ∧
     ((parse_marker_payload [88, 27, 90]).isSome = true ↔
       ∃ cps, utf8Decode [88, 27, 90] = some cps ∧
         (rustTrim cps = sSTART ∨
           leadsWith sENDSEMI (rustTrim cps) = true))) :=
  ⟨⟨Or.inr rfl, by decide⟩,
   claim_C5_amended_boundary_parse [88, 27, 90] [27, 92] (Or.inr rfl)
     (by decide)⟩

/-- **C6 counterexample**: the path `/bin/fishy` has base name `fishy`,
which is not `fish`, yet `detect_shell_flavor` classifies it as `Fish`
(the code tests `name.contains("fish")`, not equality). -/
theorem claim_C6_counterexample :
    rustFileName "/bin/fishy".toList = some "fishy".toList ∧
    ¬ ("fishy".toList = "fish".toList) ∧
    detect_shell_flavor "/bin/fishy".toList = ShellFlavor.Fish := by
  refine ⟨by decide, by decide, by decide⟩

/-- **C6 amended**: `detect_shell_flavor` classifies by the ASCII-lowercased
base name: `Fish` exactly when it contains `"fish"` as a substring; `Posix`
exactly when it does not contain `"fish"` and equals one of `zsh`, `bash`,
`sh`, `dash`, `ksh`, `ash`; `Unsupported` otherwise. -/
theorem claim_C6_amended_classify_by_base (p name : List Char)
    (h : rustFileName p = some name) :
    detect_shell_flavor p = classifyBaseName name ∧
    (detect_shell_flavor p = ShellFlavor.Fish ↔
      strContains (name.map asciiLower) "fish".toList = true) ∧
    (detect_shell_flavor p = ShellFlavor.Posix ↔
      (¬ strContains (name.map asciiLower) "fish".toList = true ∧
        name.map asciiLower ∈ posixShells)) := by
  have hbase : detect_shell_flavor p = classifyBaseName name := by
    unfold detect_shell_flavor classifyBaseName
    rw [h]
    rfl
  refine ⟨hbase, ?_, ?_⟩ <;> rw [hbase] <;> simp only [classifyBaseName] <;>
    split_ifs with hf hp <;> simp_all

theorem claim_C6_amended_classify_by_base_witness :
    rustFileName "/usr/local/bin/fish".toList = some "fish".toList ∧
    (detect_shell_flavor "/usr/local/bin/fish".toList =
        classifyBaseName "fish".toList ∧
     (detect_shell_flavor "/usr/local/bin/fish".toList = ShellFlavor.Fish ↔
       strContains ("fish".toList.map asciiLower) "fish".toList = true) ∧
     (detect_shell_flavor "/usr/local/bin/fish".toList = ShellFlavor.Posix ↔
       (¬ strContains ("fish".toList.map asciiLower) "fish".toList = true ∧
         "fish".toList.map asciiLower ∈ posixShells))) :=
  ⟨by decide, claim_C6_amended_classify_by_base "/usr/local/bin/fish".toList
    "fish".toList (by decide)⟩

/-- **C7**: `resize` with rows and cols equal to the last applied size is a
no-op that returns `Ok` and leaves the whole state — `suppress_until`
included — unchanged; after a real resize at `t0` followed by an identical
resize at `t1`, the suppression deadline is still `t0 + RESIZE_SUPPRESS_MS`
(not rearmed), so nonempty cleaned output observed at any `tn` past the
first call's window is counted as activity (`last_output := tn`,
`active := true`), not suppressed. -/
theorem claim_C7_resize_identical_no_rearm (f : SessionFlags)
    (rows cols : Nat) (t0 t1 tn : Int) (clean : List Nat)
    (hchanged : ¬ (f.last_rows = rows ∧ f.last_cols = cols))
    (hclean : ¬ clean = [])
    (htn : tn > t0 + RESIZE_SUPPRESS_MS) :
    (∀ (g : SessionFlags) (r c : Nat) (t : Int), g.last_rows = r →
      g.last_cols = c → PtySession.resize g r c t = (g, Except.ok ())) ∧
    PtySession.resize (PtySession.resize f rows cols t0).1 rows cols t1 =
      ((PtySession.resize f rows cols t0).1, Except.ok ()) ∧
    (PtySession.resize f rows cols t0).1.suppress_until =
      t0 + RESIZE_SUPPRESS_MS ∧
    (cleanDataStep (PtySession.resize (PtySession.resize f rows cols
        t0).1 rows cols t1).1 tn clean).1.last_output = tn ∧
    (cleanDataStep (PtySession.resize (PtySession.resize f rows cols
        t0).1 rows cols t1).1 tn clean).1.active = true := by
  have hnoop : ∀ (g : SessionFlags) (r c : Nat) (t : Int), g.last_rows = r →
      g.last_cols = c → PtySession.resize g r c t = (g, Except.ok ()) := by
    intro g r c t h1 h2
    unfold PtySession.resize
    rw [if_pos ⟨h1, h2⟩]
    subst h1
    subst h2
    rfl
  have hfirst : PtySession.resize f rows cols t0 =
      (({ f with
            last_rows := rows,
            last_cols := cols,
            suppress_until := t0 + RESIZE_SUPPRESS_MS } : SessionFlags),
       Except.ok ()) := by
    unfold PtySession.resize
    rw [if_neg hchanged]
  have hsecond := hnoop (PtySession.resize f rows cols t0).1 rows cols t1
    (by rw [hfirst]) (by rw [hfirst])
  refine ⟨hnoop, hsecond, by rw [hfirst], ?_, ?_⟩ <;>
  · rw [hsecond, hfirst]
    unfold cleanDataStep
    rw [if_neg hclean, if_pos (by simpa using htn)]

theorem claim_C7_resize_identical_no_rearm_witness :
    (¬ ((initialFlags 24 80).last_rows = 30 ∧
        (initialFlags 24 80).last_cols = 100) ∧
     ¬ (([65] : List Nat) = []) ∧
     (2000 : Int) > 5 + RESIZE_SUPPRESS_MS) ∧
    ((∀ (g : SessionFlags) (r c : Nat) (t : Int), g.last_rows = r →
       g.last_cols = c → PtySession.resize g r c t = (g, Except.ok ())) ∧
     PtySession.resize (PtySession.resize (initialFlags 24 80) 30 100 5).1
        30 100 700 =
       ((PtySession.resize (initialFlags 24 80) 30 100 5).1,
        Except.ok ()) ∧
     (PtySession.resize (initialFlags 24 80) 30 100 5).1.suppress_until =
       5 + RESIZE_SUPPRESS_MS ∧
     (cleanDataStep (PtySession.resize (PtySession.resize
        (initialFlags 24 80) 30 100 5).1 30 100 700).1 2000
        [65]).1.last_output = 2000 ∧
     (cleanDataStep (PtySession.resize (PtySession.resize
        (initialFlags 24 80) 30 100 5).1 30 100 700).1 2000
        [65]).1.active = true) :=
  ⟨⟨by decide, by decide, by decide⟩,
   claim_C7_resize_identical_no_rearm (initialFlags 24 80) 30 100 5 700
     2000 [65] (by decide) (by decide) (by decide)⟩

/-- **C8**: `process_chunk` equals the uncapped scan followed by the cap
flush: whenever the buffered partial sequence would exceed `MAX_PENDING`,
the entire buffered content is appended verbatim to the chunk's cleaned
output and the pending buffer becomes empty; consequently the pending
buffer never exceeds the cap after `process_chunk` returns. -/
theorem claim_C8_pending_cap (pending chunk : List Nat) :
    OscMarkerParser.process_chunk pending chunk =
      postCap (scanUncapped (pending ++ chunk)) ∧
    ((OscMarkerParser.process_chunk pending chunk).2.2).length ≤
      MAX_PENDING ∧
    (∀ r : List Nat × List MarkerEvent × List Nat,
      r.2.2.length > MAX_PENDING → postCap r = (r.1 ++ r.2.2, r.2.1, [])) :=
  ⟨scan_eq_postCap_scanUncapped (pending ++ chunk),
   scan_pending_le_max (pending ++ chunk),
   fun r h => by unfold postCap; rw [if_pos h]⟩

/-- **C9**: `busy_session_count` is exactly the number of registered
sessions whose `is_busy()` is true, and dead sessions never contribute:
the count equals the busy count over only the still-alive registry
entries, so a session whose reader observed EOF (alive = false) is never
counted even while it still sits in the registry. -/
theorem claim_C9_busy_count_excludes_dead (m : PtyManager) :
    PtyManager.busy_session_count m =
      (m.sessions.filter (fun e => PtySession.is_busy e.2)).length ∧
    PtyManager.busy_session_count m =
      ((m.sessions.filter (fun e => PtySession.is_alive e.2)).filter
        (fun e => PtySession.is_busy e.2)).length := by
  refine ⟨rfl, ?_⟩
  unfold PtyManager.busy_session_count
  have hba : ∀ e : String × SessionFlags,
      (PtySession.is_busy e.2 && PtySession.is_alive e.2) =
        PtySession.is_busy e.2 := by
    intro e
    cases h : e.2.alive <;>
      simp [PtySession.is_alive, PtySession.is_busy, h]
  rw [List.filter_filter]
  simp only [hba]

/-- **C10**: parsing an idle progress marker (`Progress{active: false}`)
sets `progress_observed` and clears `progress_running` always; but it
clears `active` and emits `Activity{false, progress}` only when
`command_running` is false at that moment — while a command runs, `active`
is left unchanged and no event is emitted. -/
theorem claim_C10_progress_idle_respects_command (f : SessionFlags)
    (now : Int) :
    applyMarkerEvent f now (MarkerEvent.progress false) =
      (if f.command_running then
        ({ f with progress_observed := true, progress_running := false },
         ([] : List PtyEvent))
       else
        ({ f with
             progress_observed := true,
             progress_running := false,
             active := false },
         [PtyEvent.activity false PtyActivitySource.progress])) := by
  unfold applyMarkerEvent
  cases h : f.command_running <;> simp [h]

end Codezilla
